import Mathlib

/-!
# Verification of the star-camera / star-identifier core

Shallow embedding of the star tracker pipeline (spot extraction,
distortion inversion, k-vector range search, two-star voting and
pyramid identification) over exact arithmetic (`ℚ`, `ℤ`, `ℕ`).

Modelling conventions:
* C `float`/`double` arithmetic is embedded over `ℚ` (exact); the
  transcendental kernel `acos(a·b/(|a||b|))·180/π` is not expressible
  exactly, so pairwise observed angles enter the identifier as a
  parameter `theta : ℕ → ℕ → ℚ` (one value per ordered spot pair),
  exactly as the computed angle values feed the rest of the code.
* The sqlite feature store is an external collaborator; its two queries
  (`theta > ? AND theta < ?`, optionally `AND (hip1 = ? OR hip2 = ?)`)
  are modelled per their contract as filters over a `List Feature`.
* `std::map<int,int>` is modelled as a key-sorted duplicate-free
  association list; `operator[]` inserts a value-initialised entry.
* Machine-integer wraparound is made explicit (`% 2^32`) where it
  matters (the two-star validation loop compares unsigned quantities).
-/

/-- A catalog (or observed) feature: two ids and an angular separation
in degrees (`Feature2` in the source). For observed features the ids
are spot indices. -/
structure Feature where
  id1 : ℤ
  id2 : ℤ
  theta : ℚ
deriving DecidableEq, Inhabited

/-- An extracted spot: sub-pixel centre and pixel area (`Spot` in the
source, `starcamera.h`). -/
structure Spot where
  center : ℚ × ℚ
  area : ℤ
deriving DecidableEq, Inhabited

/-! ## Thresholder and frame side effects (part_001) -/

/-- The five centroiding policies of `StarCamera::extractSpots`. -/
inductive CentroidingMethod
  | contoursGeometric
  | contoursWeighted
  | contoursWeightedBoundingBox
  | connectedComponentsGeometric
  | connectedComponentsWeighted
deriving DecidableEq

/-- `cv::threshold(mFrame, mThreshed, mThreshold, 0, THRESH_TOZERO)`:
pixels strictly above the threshold keep their intensity, the rest
become 0.  Frames are modelled as intensity functions on pixel
coordinates. -/
def thresholdFrame (T : ℕ) (frame : ℕ → ℕ → ℕ) : ℕ → ℕ → ℕ :=
  fun i j => if T < frame i j then frame i j else 0

/-- The frame-marking pass at the end of
`CentroidingConnectedComponentsGeometric`: every pixel whose label is
positive and whose component pixel count (`stats(label, 4)`) exceeds 15
is overwritten with 129 in the thresholded frame.  `labels` and
`statsArea` are the outputs of the external 8-connectivity labeller run
on the thresholded frame. -/
def ccGeomMarkFrame (labels : ℕ → ℕ → ℕ) (statsArea : ℕ → ℤ)
    (g : ℕ → ℕ → ℕ) : ℕ → ℕ → ℕ :=
  fun i j => if 0 < labels i j ∧ 15 < statsArea (labels i j) then 129 else g i j

/-- The thresholded frame as it stands after `extractSpots(method)`
returns: only the connected-components geometric method writes to it
after thresholding (the marking pass above); every other method leaves
the pure thresholding of the loaded frame. -/
def frameAfterExtract (method : CentroidingMethod) (T : ℕ)
    (frame : ℕ → ℕ → ℕ) (labels : ℕ → ℕ → ℕ) (statsArea : ℕ → ℤ) :
    ℕ → ℕ → ℕ :=
  match method with
  | .connectedComponentsGeometric =>
      ccGeomMarkFrame labels statsArea (thresholdFrame T frame)
  | _ => thresholdFrame T frame

/-! ## Connected-components spot filters (part_001, lines 238-297)

Per-label statistics are produced by the external OpenCV labeller; the
repository code only filters and converts them.  Note that both
connected-components methods compare the component area against the
literal `16`, not against the session's `mMinArea`. -/

/-- Per-label output of `cv::connectedComponentsWithStats`: pixel count
and geometric centroid.  Index 0 is the background label. -/
structure CCStats where
  area : ℤ
  cx : ℚ
  cy : ℚ
deriving DecidableEq, Inhabited

/-- Per-label output of `cv::connectedComponentsForStarCam`: pixel
count, intensity-weighted coordinate sums and intensity sum. -/
structure CCWStats where
  area : ℤ
  wx : ℤ
  wy : ℤ
  wsum : ℤ
deriving DecidableEq, Inhabited

/-- Spot list built by `CentroidingConnectedComponentsGeometric`:
labels 1..n-1 whose pixel count exceeds the literal 16 are emitted with
the labeller's centroid.  The configured `mMinArea` is not consulted. -/
def ccGeometricSpots (stats : List CCStats) : List Spot :=
  (stats.drop 1).filterMap fun st =>
    if 16 < st.area then some ⟨(st.cx, st.cy), st.area⟩ else none

/-- Spot list built by `CentroidingConnectedComponentsWeighted`: labels
1..n-1 whose pixel count exceeds the literal 16 are emitted with the
weighted centroid `(wx/wsum, wy/wsum)`.  The configured `mMinArea` is
not consulted. -/
def ccWeightedSpots (stats : List CCWStats) : List Spot :=
  (stats.drop 1).filterMap fun r =>
    if 16 < r.area then
      some ⟨((r.wx : ℚ) / (r.wsum : ℚ), (r.wy : ℚ) / (r.wsum : ℚ)), r.area⟩
    else none

/-! ## Weighted centroid within a contour (part_001, lines 325-375) -/

/-- The accumulation loop of `computeWeightedCentroid` over the masked
bounding-rectangle patch `temp` (a row-major intensity matrix produced
by drawing and filling the contour and AND-ing with the frame):
returns `(sum, area, weightingX, weightingY)` where
`sum = Σ p`, `area = #{p > 0}`, `weightingX = Σ j·p`,
`weightingY = Σ i·p`. -/
def wcAccum (temp : List (List ℕ)) : ℕ × ℕ × ℕ × ℕ :=
  (temp.enum).foldl
    (fun acc row =>
      (row.2.enum).foldl
        (fun acc cell =>
          let i := row.1
          let j := cell.1
          let p := cell.2
          (acc.1 + p,
           acc.2.1 + (if 0 < p then 1 else 0),
           acc.2.2.1 + j * p,
           acc.2.2.2 + i * p))
        acc)
    (0, 0, 0, 0)

/-- `computeWeightedCentroid` as written in the source: both centroid
coordinates are divided out of `weightingX` (the y-coordinate uses the
x accumulator), offset by the bounding rectangle's top-left corner
`tl`; the returned value pairs the centroid with the pixel-count
area. -/
def computeWeightedCentroid (temp : List (List ℕ)) (tl : ℚ × ℚ) :
    (ℚ × ℚ) × ℕ :=
  let a := wcAccum temp
  let s : ℚ := (a.1 : ℚ)
  (((a.2.2.1 : ℚ) / s + tl.1, (a.2.2.1 : ℚ) / s + tl.2), a.2.1)

/-- Modelled from the spec: the weighted centroid with
`ȳ = Σ p(x,y)·y / Σ p(x,y)` taken from the y accumulator
(`weightingY / sum`), as §4.2 CONTOUR_WEIGHTED prescribes. -/
def computeWeightedCentroidSpec (temp : List (List ℕ)) (tl : ℚ × ℚ) :
    (ℚ × ℚ) × ℕ :=
  let a := wcAccum temp
  let s : ℚ := (a.1 : ℚ)
  (((a.2.2.1 : ℚ) / s + tl.1, (a.2.2.2 : ℚ) / s + tl.2), a.2.1)

/-! ## Camera model (part_001, lines 129-159 and 299-323) -/

/-- Calibration record.  The distortion vector is stored in the file
order `k1 k2 p1 p2 k3` (`mDistortionCoeffi(0..4)`). -/
structure Calib where
  principal : ℚ × ℚ
  focal : ℚ × ℚ
  skew : ℚ
  k1 : ℚ
  k2 : ℚ
  p1 : ℚ
  p2 : ℚ
  k3 : ℚ
deriving DecidableEq

/-- One iteration of the fixed-point loop in
`undistortRadialTangential`: given the distorted input `xin` and the
current guess `Xc`, compute `r² = Xc·Xc`, the radial factor
`k_r = 1 + k1·r² + k2·r⁴ + k3·r²·r⁴`, the tangential term `δ`, and
return `(xin − δ)/k_r`. -/
def undistortStep (c : Calib) (xin Xc : ℚ × ℚ) : ℚ × ℚ :=
  let r2 := Xc.1 * Xc.1 + Xc.2 * Xc.2
  let r4 := r2 * r2
  let kRadial := 1 + c.k1 * r2 + c.k2 * r4 + c.k3 * (r2 * r4)
  let dX1 := 2 * c.p1 * Xc.1 * Xc.2 + c.p2 * (r2 + 2 * Xc.1 * Xc.1)
  let dX2 := c.p1 * (r2 + 2 * Xc.2 * Xc.2) + 2 * c.p2 * Xc.1 * Xc.2
  ((xin.1 - dX1) / kRadial, (xin.2 - dX2) / kRadial)

/-- The `for(int i=0; i<20; ++i)` loop of `undistortRadialTangential`,
with the remaining iteration count explicit. -/
def undistortLoop (c : Calib) (xin : ℚ × ℚ) : ℕ → ℚ × ℚ → ℚ × ℚ
  | 0, Xc => Xc
  | n + 1, Xc => undistortLoop c xin n (undistortStep c xin Xc)

/-- `StarCamera::undistortRadialTangential`: 20 loop iterations
starting from the initial guess `Xc = xin`. -/
def undistortRadialTangential (c : Calib) (xin : ℚ × ℚ) : ℚ × ℚ :=
  undistortLoop c xin 20 xin

/-- Modelled from the spec (§4.3 step 3): one application of
`X_{n+1} = (x_d − δ(X_n))/k_r(X_n)` with
`k_r = 1 + k1·r² + k2·r⁴ + k3·r⁶` and
`δ = (2·p1·x·y + p2·(r² + 2x²), p1·(r² + 2y²) + 2·p2·x·y)`. -/
def specUndistortStep (c : Calib) (xd X : ℚ × ℚ) : ℚ × ℚ :=
  let r2 := X.1 * X.1 + X.2 * X.2
  let kr := 1 + c.k1 * r2 + c.k2 * (r2 * r2) + c.k3 * (r2 * r2 * r2)
  let d1 := 2 * c.p1 * X.1 * X.2 + c.p2 * (r2 + 2 * X.1 * X.1)
  let d2 := c.p1 * (r2 + 2 * X.2 * X.2) + 2 * c.p2 * X.1 * X.2
  ((xd.1 - d1) / kr, (xd.2 - d2) / kr)

/-- Squared Euclidean norm of the distortion coefficient vector; the
source guards the fixed-point inversion with
`mDistortionCoeffi.norm() != 0`, which over exact arithmetic is
equivalent to this quantity being non-zero. -/
def distortionNormSq (c : Calib) : ℚ :=
  c.k1 * c.k1 + c.k2 * c.k2 + c.p1 * c.p1 + c.p2 * c.p2 + c.k3 * c.k3

/-- Steps 1-2 of `calculateSpotVectors` for one spot: subtract the
principal point, divide by the focal length componentwise, and remove
pixel skew from the x coordinate. -/
def spotToDistorted (c : Calib) (spot : ℚ × ℚ) : ℚ × ℚ :=
  let xd := ((spot.1 - c.principal.1) / c.focal.1,
             (spot.2 - c.principal.2) / c.focal.2)
  (xd.1 - c.skew * xd.2, xd.2)

/-- `calculateSpotVectors` for one spot up to (not including) the final
unit normalisation (which involves an irrational square root): the
distorted coordinates are inverted through the fixed-point loop unless
the distortion coefficient vector has norm zero, then `z = 1` is
appended. -/
def calcSpotVectorPreNorm (c : Calib) (spot : ℚ × ℚ) : ℚ × ℚ × ℚ :=
  let xd := spotToDistorted c spot
  let xu := if distortionNormSq c = 0 then xd
            else undistortRadialTangential c xd
  (xu.1, xu.2, 1)

/-! ## Angle computation and `acos` clamping (part_000, lines 380-390,
482-489, 612-619, 697-704, 780-782)

The identifier computes `float ratio = a.dot(b)/(a.norm()*b.norm())`
and then applies `acos(ratio) * 180/π` directly.  In single-precision
arithmetic the computed ratio can land strictly outside `[−1, 1]` for
(nearly) parallel vectors, in which case C `acos` returns NaN.  The
post-dot-product computation is embedded as a function of the computed
ratio; `none` models the NaN result, and the in-range values of
`acos(·)·180/π` are abstracted by a parameter `ac`. -/

/-- Model of `acos(x) * RAD_TO_DEG` applied to a computed ratio `x`:
NaN (`none`) strictly outside `[−1, 1]`, the abstract in-range value
`ac x` otherwise.  The source applies this directly to the unclamped
dot-product ratio. -/
def acosDegModel (ac : ℚ → ℚ) (x : ℚ) : Option ℚ :=
  if x < -1 ∨ 1 < x then none else some (ac x)

/-- Modelled from the spec (§4.5.3): clamp the ratio to `[−1, +1]`. -/
def clampUnit (x : ℚ) : ℚ := max (-1) (min 1 x)

/-- Modelled from the spec: the angle computation the spec mandates,
with the ratio clamped before `acos`; total (never NaN). -/
def angleDegOfRatioSpec (ac : ℚ → ℚ) (x : ℚ) : Option ℚ :=
  acosDegModel ac (clampUnit x)

/-! ## Claim theorems for the camera side -/

/-- **C8**: `calculateSpotVectors` inverts the Brown–Conrady model by
exactly 20 fixed-point iterations of the spec's
`X_{n+1} = (x_d − δ(X_n))/k_r(X_n)` recurrence starting from
`X₀ = x_d`, with no convergence test; and the iteration runs exactly
when some distortion coefficient is non-zero, being skipped entirely
when all five are zero. -/
theorem undistort_is_twenty_spec_iterations :
    (∀ (c : Calib) (xin : ℚ × ℚ),
      undistortRadialTangential c xin = (specUndistortStep c xin)^[20] xin) ∧
    (∀ (c : Calib) (spot : ℚ × ℚ),
      calcSpotVectorPreNorm c spot =
        (let xd := spotToDistorted c spot
         let xu := if c.k1 = 0 ∧ c.k2 = 0 ∧ c.p1 = 0 ∧ c.p2 = 0 ∧ c.k3 = 0
                   then xd else (specUndistortStep c xd)^[20] xd
         (xu.1, xu.2, 1))) := by
  have hstep : ∀ (c : Calib) (xin X : ℚ × ℚ),
      undistortStep c xin X = specUndistortStep c xin X := by
    intro c xin X
    simp only [undistortStep, specUndistortStep, Prod.mk.injEq]
    constructor <;> ring
  have hloop : ∀ (c : Calib) (xin : ℚ × ℚ) (n : ℕ) (X : ℚ × ℚ),
      undistortLoop c xin n X = (specUndistortStep c xin)^[n] X := by
    intro c xin n
    induction n with
    | zero => intro X; rfl
    | succ n ih =>
        intro X
        have h1 : undistortLoop c xin (n + 1) X =
            undistortLoop c xin n (undistortStep c xin X) := rfl
        rw [h1, Function.iterate_succ_apply, hstep, ih]
  have hiter : ∀ (c : Calib) (xin : ℚ × ℚ),
      undistortRadialTangential c xin = (specUndistortStep c xin)^[20] xin := by
    intro c xin; exact hloop c xin 20 xin
  refine ⟨hiter, ?_⟩
  intro c spot
  have hzero : distortionNormSq c = 0 ↔
      (c.k1 = 0 ∧ c.k2 = 0 ∧ c.p1 = 0 ∧ c.p2 = 0 ∧ c.k3 = 0) := by
    constructor
    · intro h
      have h1 := mul_self_nonneg c.k1
      have h2 := mul_self_nonneg c.k2
      have h3 := mul_self_nonneg c.p1
      have h4 := mul_self_nonneg c.p2
      have h5 := mul_self_nonneg c.k3
      have e1 : c.k1 * c.k1 = 0 := by
        simp only [distortionNormSq] at h; nlinarith
      have e2 : c.k2 * c.k2 = 0 := by
        simp only [distortionNormSq] at h; nlinarith
      have e3 : c.p1 * c.p1 = 0 := by
        simp only [distortionNormSq] at h; nlinarith
      have e4 : c.p2 * c.p2 = 0 := by
        simp only [distortionNormSq] at h; nlinarith
      have e5 : c.k3 * c.k3 = 0 := by
        simp only [distortionNormSq] at h; nlinarith
      exact ⟨by nlinarith, by nlinarith, by nlinarith, by nlinarith, by nlinarith⟩
    · rintro ⟨h1, h2, h3, h4, h5⟩
      simp [distortionNormSq, h1, h2, h3, h4, h5]
  by_cases h : c.k1 = 0 ∧ c.k2 = 0 ∧ c.p1 = 0 ∧ c.p2 = 0 ∧ c.k3 = 0
  · simp only [calcSpotVectorPreNorm]
    rw [if_pos (hzero.mpr h), if_pos h]
  · have hne : ¬ distortionNormSq c = 0 := fun hc => h (hzero.mp hc)
    simp only [calcSpotVectorPreNorm]
    rw [if_neg hne, if_neg h, hiter]

/-- **C5** (counter-evaluation): on a 2×1 patch with both pixels at
intensity 100 and bounding-rectangle corner (0,0), the source's
weighted centroid returns `ȳ = weightingX/sum = 0`, while the
spec-mandated computation returns `ȳ = weightingY/sum = 1/2`; the
emitted y-coordinate is taken from the x accumulator. -/
theorem weighted_centroid_y_uses_x_accumulator :
    computeWeightedCentroid [[100], [100]] (0, 0) = ((0, 0), 2) ∧
    computeWeightedCentroidSpec [[100], [100]] (0, 0) = ((0, 1/2), 2) := by
  constructor <;>
    norm_num [computeWeightedCentroid, computeWeightedCentroidSpec, wcAccum,
      List.enum, List.enumFrom, Prod.ext_iff]

/-- **C6** (counter-evaluation): the identifier applies `acos` to the
raw normalized-dot ratio without clamping, so the ratio `1 + 10⁻⁷`
(producible by float rounding for near-parallel vectors) yields NaN
(`none`), whereas the spec-mandated clamped computation yields the
angle at ratio 1, for every valuation `ac` of in-range `acos`. -/
theorem acos_ratio_not_clamped (ac : ℚ → ℚ) :
    acosDegModel ac (1 + 1/10000000) = none ∧
    angleDegOfRatioSpec ac (1 + 1/10000000) = some (ac 1) := by
  constructor
  · have hc : ((1 : ℚ) + 1/10000000 < -1 ∨ (1 : ℚ) < 1 + 1/10000000) := by
      right; norm_num
    simp only [acosDegModel]
    rw [if_pos hc]
  · have hcl : clampUnit (1 + 1/10000000) = 1 := by
      simp only [clampUnit]
      rw [min_eq_left (by norm_num : (1 : ℚ) ≤ 1 + 1/10000000)]
      norm_num
    have hc : ¬ ((1 : ℚ) < -1 ∨ (1 : ℚ) < 1) := by norm_num
    simp only [angleDegOfRatioSpec, hcl, acosDegModel]
    rw [if_neg hc]

/-- **C4** (counter-evaluation): the connected-components geometric
method keeps every component whose pixel count exceeds the literal 16;
with the session's `min_area` configured to 100, a 50-pixel component
is still emitted as a spot of area 50 < 100 (both `ccGeometricSpots`
and `ccWeightedSpots` take no `min_area` input at all). -/
theorem cc_methods_ignore_configured_min_area :
    ccGeometricSpots [⟨0, 0, 0⟩, ⟨50, 3, 4⟩] = [⟨(3, 4), 50⟩] ∧
    (∀ s ∈ ccGeometricSpots [⟨0, 0, 0⟩, ⟨50, 3, 4⟩], s.area < 100) ∧
    ccWeightedSpots [⟨0, 0, 0, 0⟩, ⟨50, 100, 200, 50⟩] = [⟨(2, 4), 50⟩] ∧
    (∀ s ∈ ccWeightedSpots [⟨0, 0, 0, 0⟩, ⟨50, 100, 200, 50⟩], s.area < 100) := by
  have hw : ccWeightedSpots [⟨0, 0, 0, 0⟩, ⟨50, 100, 200, 50⟩] =
      [⟨(2, 4), 50⟩] := by
    norm_num [ccWeightedSpots, List.filterMap, Spot.mk.injEq, Prod.ext_iff]
  refine ⟨by decide, by decide, hw, ?_⟩
  rw [hw]
  decide

/-! ## Catalog store contract (back-end A, external sqlite)

The feature store is an external collaborator (spec §4.4 back-end A);
its two queries are modelled per their documented contract over a
`List Feature`: all features whose angle lies strictly between the
bounds, optionally restricted to those containing a required id. -/

/-- `SELECT * FROM featureList WHERE theta > lo AND theta < hi`. -/
def queryRange (catalog : List Feature) (lo hi : ℚ) : List Feature :=
  catalog.filter (fun f => decide (lo < f.theta) && decide (f.theta < hi))

/-- `SELECT * FROM featureList WHERE (theta > lo AND theta < hi) AND
(hip1 = hip OR hip2 = hip)`. -/
def queryRangeWithId (catalog : List Feature) (lo hi : ℚ) (hip : ℤ) :
    List Feature :=
  catalog.filter
    (fun f => decide (lo < f.theta) && decide (f.theta < hi) &&
      (f.id1 == hip || f.id2 == hip))

/-! ## In-memory k-vector back-end (part_000, lines 70-96 and 807-844) -/

/-- The k-vector session state loaded by `loadFeatureListKVector`:
envelope `Q M`, integer array `K` (`mKVector`) and the θ-sorted feature
list (`mFeatureList`). -/
structure KVector where
  Q : ℚ
  M : ℚ
  K : List ℤ
  features : List Feature
deriving DecidableEq

/-- The value the source casts to `unsigned` to obtain a k-vector step
index: `(theta - mQ) / mM`.  The source performs no clamping before the
cast, so a bound below `mQ` produces a negative value whose conversion
to `unsigned` is out of the index domain. -/
def kvJB (Q M theta : ℚ) : ℚ := (theta - Q) / M

/-- `StarIdentifier::retrieveFeatureListKVector(thetaMin, thetaMax)`:
`jb = (unsigned)((thetaMin − Q)/M)`, `jt = (unsigned)((thetaMax − Q)/M) + 1`,
`kb = K[jb] + 1`, `kt = K[jt]`, and the returned list is
`features[kb] … features[kt]`.

The `(unsigned)` casts are modelled as `Int.floor ∘ Rat.toNat`-style
truncation (`⌊·⌋.toNat`), exact for non-negative arguments; for
negative arguments the C conversion is undefined and indexes `K` out of
range (see `kvector_step_index_negative`).  Out-of-range list reads,
undefined in C++, are modelled by `List.getD` with a default. -/
def retrieveFeatureListKVector (kv : KVector) (thetaMin thetaMax : ℚ) :
    List Feature :=
  let jb := ⌊kvJB kv.Q kv.M thetaMin⌋.toNat
  let jt := ⌊kvJB kv.Q kv.M thetaMax⌋.toNat + 1
  let kb := (kv.K.getD jb 0 + 1).toNat
  let kt := (kv.K.getD jt 0).toNat
  (List.range (kt + 1 - kb)).map (fun m => kv.features.getD (kb + m) default)

/-- The id-filtered overload of `retrieveFeatureListKVector`: same
slice, keeping only the features containing `hip`. -/
def retrieveFeatureListKVectorId (kv : KVector) (thetaMin thetaMax : ℚ)
    (hip : ℤ) : List Feature :=
  (retrieveFeatureListKVector kv thetaMin thetaMax).filter
    (fun f => f.id1 == hip || f.id2 == hip)

/-! ## Pyramid identifier (part_000, lines 325-564 and 566-759)

`identifyPyramidMethod` (sqlite back-end) and
`identifyPyramidMethodKVector` are the same algorithm over different
query back-ends; the triad iteration is embedded once, parameterised by
the two query functions.  `theta i j` is the computed angle (degrees)
between star vectors `i` and `j`. -/

/-- Error taxonomy of the identifier entry points (§7). -/
inductive IdError
  | noDatabase
  | noFeatureList
  | insufficientInputs
deriving DecidableEq

/-- The triad-orientation step (lines 429-444): given a candidate
feature for the I-J angle and one for the I-K angle, find the shared id
(`tempI`) and orient the remaining ids as `tempJ`, `tempK`; `none` when
the two features share no id. -/
def orientTriad (fIJ fIK : Feature) : Option (ℤ × ℤ × ℤ) :=
  if fIJ.id1 = fIK.id1 ∨ fIJ.id2 = fIK.id1 then
    some (fIK.id1, if fIJ.id1 = fIK.id1 then fIJ.id2 else fIJ.id1, fIK.id2)
  else if fIJ.id1 = fIK.id2 ∨ fIJ.id2 = fIK.id2 then
    some (fIK.id2, if fIJ.id1 = fIK.id2 then fIJ.id2 else fIJ.id1, fIK.id1)
  else none

/-- The triad cross-match count (lines 423-462): for every pair of
candidates from `listIJ × listIK` that orients, the J-K list is scanned
and the first completing feature bumps the count (the inner loop
breaks); the hip triple of the last counted pair is retained. -/
def countTriads (listIJ listIK listJK : List Feature) :
    ℕ × ℤ × ℤ × ℤ :=
  listIJ.foldl
    (fun acc fIJ =>
      listIK.foldl
        (fun acc fIK =>
          match orientTriad fIJ fIK with
          | none => acc
          | some (tI, tJ, tK) =>
              if listJK.any (fun f =>
                  (f.id1 == tK || f.id2 == tK) && (f.id1 == tJ || f.id2 == tJ))
              then (acc.1 + 1, tI, tJ, tK)
              else acc)
        acc)
    (0, 0, 0, 0)

/-- The fourth-star cross-match count (lines 522-544): for each
candidate of the I-R list, `idCheck` is the id other than `hipI`; each
J-R candidate containing `idCheck` contributes one count if some K-R
candidate also contains it (the K-R scan breaks at the first hit); the
last counted id is retained. -/
def countConfirm (hipI : ℤ) (listIR listJR listKR : List Feature) :
    ℕ × ℤ :=
  listIR.foldl
    (fun acc fIR =>
      let idCheck := if fIR.id1 = hipI then fIR.id2 else fIR.id1
      listJR.foldl
        (fun acc fJR =>
          if fJR.id1 = idCheck ∨ fJR.id2 = idCheck then
            if listKR.any (fun f => f.id1 == idCheck || f.id2 == idCheck) then
              (acc.1 + 1, idCheck)
            else acc
          else acc)
        acc)
    (0, 0)

/-- The confirmation loop over the remaining spots `r` (lines 474-555):
for each `r` outside the triad, the three angle windows are queried
with the respective required hip; if any list is empty `r` is skipped;
when the cross-match count is exactly 1, `idList[r]` is set and the
identification is flagged complete (the loop still visits the remaining
`r`). -/
def confirmPass (qid : ℚ → ℚ → ℤ → List Feature) (theta : ℕ → ℕ → ℚ)
    (eps : ℚ) (n i j k : ℕ) (hips : ℤ × ℤ × ℤ) (idL : List ℤ) :
    List ℤ × Bool :=
  (List.range n).foldl
    (fun st r =>
      if r = i ∨ r = j ∨ r = k then st
      else
        let listIR := qid (theta i r - eps) (theta i r + eps) hips.1
        if listIR = [] then st
        else
          let listJR := qid (theta j r - eps) (theta j r + eps) hips.2.1
          if listJR = [] then st
          else
            let listKR := qid (theta k r - eps) (theta k r + eps) hips.2.2
            if listKR = [] then st
            else
              let c := countConfirm hips.1 listIR listJR listKR
              if c.1 = 1 then (st.1.set r c.2, true) else st)
    (idL, false)

/-- One triad body (lines 374-555): reset `idList` to all −1, query the
three angle windows (skipping on any empty list), require a unique
cross-match, tentatively assign the triad's hips and run the
confirmation loop. -/
def processTriad (q : ℚ → ℚ → List Feature)
    (qid : ℚ → ℚ → ℤ → List Feature) (theta : ℕ → ℕ → ℚ) (eps : ℚ)
    (n : ℕ) (t : ℕ × ℕ × ℕ) : List ℤ × Bool :=
  let i := t.1
  let j := t.2.1
  let k := t.2.2
  let base := List.replicate n (-1 : ℤ)
  let listIJ := q (theta i j - eps) (theta i j + eps)
  if listIJ = [] then (base, false)
  else
    let listIK := q (theta i k - eps) (theta i k + eps)
    if listIK = [] then (base, false)
    else
      let listJK := q (theta j k - eps) (theta j k + eps)
      if listJK = [] then (base, false)
      else
        let ct := countTriads listIJ listIK listJK
        if ct.1 ≠ 1 then (base, false)
        else
          let idL := ((base.set i ct.2.1).set j ct.2.2.1).set k ct.2.2.2
          confirmPass qid theta eps n i j k ct.2 idL

/-- The triads in the Mortari iteration order (lines 370-377): outer
`dj ∈ [1, n−2]`, then `dk ∈ [1, n−dj−1]`, then `i ∈ [0, n−dj−dk)`,
with `j = i + dj`, `k = j + dk`. -/
def triadSeq (n : ℕ) : List (ℕ × ℕ × ℕ) :=
  (List.range' 1 (n - 2)).flatMap fun dj =>
    (List.range' 1 (n - dj - 1)).flatMap fun dk =>
      (List.range (n - dj - dk)).map fun i => (i, i + dj, i + dj + dk)

/-- The full triad iteration with the `identificationComplete` early
exit: once a triad is accepted (some fourth star confirmed) the
remaining triads are skipped; every processed triad starts from a fresh
all-(−1) list.  Returns the final `idList` together with the
`identificationComplete` flag. -/
def runPyramidState (q : ℚ → ℚ → List Feature)
    (qid : ℚ → ℚ → ℤ → List Feature) (theta : ℕ → ℕ → ℚ) (eps : ℚ)
    (n : ℕ) : List ℤ × Bool :=
  (triadSeq n).foldl
    (fun st t => if st.2 then st else processTriad q qid theta eps n t)
    (List.replicate n (-1 : ℤ), false)

/-- `StarIdentifier::identifyPyramidMethod`: requires an open database
and at least 4 star vectors, then runs the triad iteration over the
sqlite back-end. -/
def identifyPyramidMethod (dbOpen : Bool) (catalog : List Feature)
    (theta : ℕ → ℕ → ℚ) (eps : ℚ) (n : ℕ) : Except IdError (List ℤ) :=
  if ¬ dbOpen then .error .noDatabase
  else if n < 4 then .error .insufficientInputs
  else .ok (runPyramidState (queryRange catalog) (queryRangeWithId catalog)
    theta eps n).1

/-- `StarIdentifier::identifyPyramidMethodKVector`: requires a loaded
k-vector and feature list and at least 4 star vectors, then runs the
triad iteration over the k-vector back-end. -/
def identifyPyramidMethodKVector (kv : KVector) (theta : ℕ → ℕ → ℚ)
    (eps : ℚ) (n : ℕ) : Except IdError (List ℤ) :=
  if kv.K = [] ∨ kv.features = [] then .error .noFeatureList
  else if n < 4 then .error .insufficientInputs
  else .ok (runPyramidState
    (fun lo hi => retrieveFeatureListKVector kv lo hi)
    (fun lo hi hip => retrieveFeatureListKVectorId kv lo hi hip)
    theta eps n).1

/-! ## Claim theorems for the k-vector and pyramid identifiers -/

/-- **C3** (counter-evaluation): for a query bound below `θ_min` the
value the k-vector back-end casts to an unsigned step index is
negative: with `Q = 0`, `M = 0.01` and `θ_lo = −1/2` the source
computes `(θ_lo − Q)/M = −50` and converts it straight to `unsigned`
with no clamping, so `K` is not indexed within its valid range. -/
theorem kvector_step_index_negative :
    kvJB 0 (1/100) (-(1/2)) = -50 ∧ kvJB 0 (1/100) (-(1/2)) < 0 := by
  constructor <;> norm_num [kvJB]

/-- **C9**: a pyramid identification (either back-end) invoked with
fewer than 4 star vectors fails with the insufficient-inputs error and
produces no id list, provided the respective catalog session is open
(otherwise the session error fires first in the source). -/
theorem pyramid_requires_four_vectors (catalog : List Feature)
    (kv : KVector) (theta : ℕ → ℕ → ℚ) (eps : ℚ) (n : ℕ)
    (hn : n < 4) (hK : kv.K ≠ []) (hF : kv.features ≠ []) :
    identifyPyramidMethod true catalog theta eps n =
      .error .insufficientInputs ∧
    identifyPyramidMethodKVector kv theta eps n =
      .error .insufficientInputs := by
  constructor
  · simp [identifyPyramidMethod, hn]
  · have h : ¬ (kv.K = [] ∨ kv.features = []) := by
      rintro (h | h)
      · exact hK h
      · exact hF h
    simp only [identifyPyramidMethodKVector]
    rw [if_neg h, if_pos hn]

/-- Witness for `pyramid_requires_four_vectors` at a concrete
3-vector input and a loaded one-feature k-vector session. -/
theorem pyramid_requires_four_vectors_witness :
    identifyPyramidMethod true [] (fun _ _ => 0) 0 3 =
      .error .insufficientInputs ∧
    identifyPyramidMethodKVector ⟨0, 1, [0], [⟨1, 2, 1⟩]⟩ (fun _ _ => 0) 0 3 =
      .error .insufficientInputs :=
  pyramid_requires_four_vectors [] ⟨0, 1, [0], [⟨1, 2, 1⟩]⟩ (fun _ _ => 0) 0 3
    (by norm_num) (by simp) (by simp)

/-- Observed pairwise angles (degrees) of four coplanar star
directions at positions 0°, 10°, 26°, 45° along a great circle. -/
def c1Theta : ℕ → ℕ → ℚ := fun a b =>
  if (a = 0 ∧ b = 1) ∨ (a = 1 ∧ b = 0) then 10
  else if (a = 0 ∧ b = 2) ∨ (a = 2 ∧ b = 0) then 26
  else if (a = 0 ∧ b = 3) ∨ (a = 3 ∧ b = 0) then 45
  else if (a = 1 ∧ b = 2) ∨ (a = 2 ∧ b = 1) then 16
  else if (a = 1 ∧ b = 3) ∨ (a = 3 ∧ b = 1) then 35
  else if (a = 2 ∧ b = 3) ∨ (a = 3 ∧ b = 2) then 19
  else 0

/-- A catalog containing exactly the triangle of stars 101, 102, 103
matching the observed angles of spots 0, 2, 3 — and nothing matching
the angles from spot 1 to the triad, so no fourth star can confirm. -/
def c1Catalog : List Feature := [⟨101, 102, 26⟩, ⟨101, 103, 45⟩, ⟨102, 103, 19⟩]

/-- **C1** (counter-evaluation): on `c1Catalog`/`c1Theta` with `ε = 1°`
no triad is ever accepted (the completion flag stays `false`: the only
uniquely resolved triad, the last one `(0,2,3)`, finds no confirming
fourth star), yet the returned id list is `[101, −1, 102, 103]` — the
tentative ids of the unconfirmed triad leak into the result instead of
the all-(−1) list the spec requires. -/
theorem pyramid_unconfirmed_triad_leaks_tentative_ids :
    identifyPyramidMethod true c1Catalog c1Theta 1 4 =
      .ok [101, -1, 102, 103] ∧
    (runPyramidState (queryRange c1Catalog) (queryRangeWithId c1Catalog)
      c1Theta 1 4).2 = false ∧
    ([101, -1, 102, 103] : List ℤ) ≠ List.replicate 4 (-1) := by
  have h9 : queryRange c1Catalog 9 11 = [] := by
    norm_num [queryRange, c1Catalog, List.filter]
  have h15 : queryRange c1Catalog 15 17 = [] := by
    norm_num [queryRange, c1Catalog, List.filter]
  have h25 : queryRange c1Catalog 25 27 = [⟨101, 102, 26⟩] := by
    norm_num [queryRange, c1Catalog, List.filter]
  have h44 : queryRange c1Catalog 44 46 = [⟨101, 103, 45⟩] := by
    norm_num [queryRange, c1Catalog, List.filter]
  have h18 : queryRange c1Catalog 18 20 = [⟨102, 103, 19⟩] := by
    norm_num [queryRange, c1Catalog, List.filter]
  have hq9 : queryRangeWithId c1Catalog 9 11 101 = [] := by
    norm_num [queryRangeWithId, c1Catalog, List.filter]
  have ht : triadSeq 4 = [(0, 1, 2), (1, 2, 3), (0, 1, 3), (0, 2, 3)] := by
    decide
  have hct : countTriads [⟨101, 102, 26⟩] [⟨101, 103, 45⟩] [⟨102, 103, 19⟩] =
      (1, 101, 102, 103) := by
    norm_num [countTriads, orientTriad, List.any]
  have hcp : confirmPass (queryRangeWithId c1Catalog) c1Theta 1 4 0 2 3
      (101, 102, 103) [101, -1, 102, 103] = ([101, -1, 102, 103], false) := by
    have hr4 : List.range 4 = [0, 1, 2, 3] := by decide
    simp only [confirmPass, hr4, List.foldl_cons, List.foldl_nil]
    norm_num [c1Theta, hq9]
  have hp1 : processTriad (queryRange c1Catalog) (queryRangeWithId c1Catalog)
      c1Theta 1 4 (0, 1, 2) = (List.replicate 4 (-1), false) := by
    simp only [processTriad]
    norm_num [c1Theta, h9]
  have hp2 : processTriad (queryRange c1Catalog) (queryRangeWithId c1Catalog)
      c1Theta 1 4 (1, 2, 3) = (List.replicate 4 (-1), false) := by
    simp only [processTriad]
    norm_num [c1Theta, h15]
  have hp3 : processTriad (queryRange c1Catalog) (queryRangeWithId c1Catalog)
      c1Theta 1 4 (0, 1, 3) = (List.replicate 4 (-1), false) := by
    simp only [processTriad]
    norm_num [c1Theta, h9]
  have hset : (((List.replicate 4 (-1 : ℤ)).set 0 101).set 2 102).set 3 103 =
      [101, -1, 102, 103] := by decide
  have hp4 : processTriad (queryRange c1Catalog) (queryRangeWithId c1Catalog)
      c1Theta 1 4 (0, 2, 3) = ([101, -1, 102, 103], false) := by
    simp only [processTriad]
    norm_num [c1Theta, h25, h44, h18, hct, hset, hcp]
  have hrun : runPyramidState (queryRange c1Catalog)
      (queryRangeWithId c1Catalog) c1Theta 1 4 = ([101, -1, 102, 103], false) := by
    rw [runPyramidState, ht]
    simp only [List.foldl_cons, List.foldl_nil]
    rw [if_neg (by simp : ¬ (List.replicate 4 (-1 : ℤ), false).2 = true)]
    rw [hp1]
    rw [if_neg (by simp : ¬ (List.replicate 4 (-1 : ℤ), false).2 = true)]
    rw [hp2]
    rw [if_neg (by simp : ¬ (List.replicate 4 (-1 : ℤ), false).2 = true)]
    rw [hp3]
    rw [if_neg (by simp : ¬ (List.replicate 4 (-1 : ℤ), false).2 = true)]
    rw [hp4]
  refine ⟨?_, by rw [hrun], by decide⟩
  simp only [identifyPyramidMethod]
  norm_num [hrun]

/-- **C2**: under the k-vector construction invariant — features sorted
by θ with `K[j]` the index of the last feature with
`θ ≤ Q + M·j` (stated as the equivalence `p ≤ K[j] ↔ θ_p ≤ Q + M·j`,
with the convention `K[j] < 0` when no feature lies under the line) —
and for query bounds at or above `Q` whose derived step indices fall
inside `K`, the slice returned by `retrieveFeatureListKVector`
contains every feature whose θ lies strictly between the bounds. -/
theorem kvector_slice_contains_exact_range (kv : KVector)
    (thetaLo thetaHi : ℚ)
    (hM : 0 < kv.M)
    (hQlo : kv.Q ≤ thetaLo)
    (hlohi : thetaLo ≤ thetaHi)
    (hjt : ⌊kvJB kv.Q kv.M thetaHi⌋.toNat + 1 < kv.K.length)
    (hiff : ∀ j < kv.K.length, ∀ p < kv.features.length,
      ((p : ℤ) ≤ kv.K.getD j 0 ↔
        (kv.features.getD p default).theta ≤ kv.Q + kv.M * j))
    (p : ℕ) (hp : p < kv.features.length)
    (hlo : thetaLo < (kv.features.getD p default).theta)
    (hhi : (kv.features.getD p default).theta < thetaHi) :
    kv.features.getD p default ∈ retrieveFeatureListKVector kv thetaLo thetaHi := by
  have hxlo : (0 : ℚ) ≤ kvJB kv.Q kv.M thetaLo := by
    have h0 : (0 : ℚ) ≤ thetaLo - kv.Q := by linarith
    exact div_nonneg h0 (le_of_lt hM)
  have hxhi : kvJB kv.Q kv.M thetaLo ≤ kvJB kv.Q kv.M thetaHi := by
    have h1 : thetaLo - kv.Q ≤ thetaHi - kv.Q := by linarith
    exact div_le_div_of_nonneg_right h1 hM.le
  -- step indices as naturals
  set jb : ℕ := ⌊kvJB kv.Q kv.M thetaLo⌋.toNat with hjbdef
  set jt : ℕ := ⌊kvJB kv.Q kv.M thetaHi⌋.toNat + 1 with hjtdef
  have hfb : (0 : ℤ) ≤ ⌊kvJB kv.Q kv.M thetaLo⌋ := Int.floor_nonneg.mpr hxlo
  have hjb_cast : ((jb : ℤ)) = ⌊kvJB kv.Q kv.M thetaLo⌋ := by
    simp [hjbdef, Int.toNat_of_nonneg hfb]
  have hft : (0 : ℤ) ≤ ⌊kvJB kv.Q kv.M thetaHi⌋ :=
    Int.floor_nonneg.mpr (le_trans hxlo hxhi)
  have hjt_cast : ((jt : ℤ)) = ⌊kvJB kv.Q kv.M thetaHi⌋ + 1 := by
    push_cast [hjtdef]
    rw [Int.toNat_of_nonneg hft]
  have hjblt : jb < kv.K.length := by
    have hmono : ⌊kvJB kv.Q kv.M thetaLo⌋ ≤ ⌊kvJB kv.Q kv.M thetaHi⌋ :=
      Int.floor_le_floor hxhi
    omega
  -- the line at step jb lies at or below thetaLo
  have hline_b : kv.Q + kv.M * (jb : ℚ) ≤ thetaLo := by
    have h1 : ((jb : ℚ)) ≤ kvJB kv.Q kv.M thetaLo := by
      have h0 := Int.floor_le (kvJB kv.Q kv.M thetaLo)
      have h2 : ((jb : ℚ)) = ((⌊kvJB kv.Q kv.M thetaLo⌋ : ℤ) : ℚ) := by
        exact_mod_cast hjb_cast
      linarith [h2.le, h2.ge]
    have h2 : kv.M * (jb : ℚ) ≤ kv.M * kvJB kv.Q kv.M thetaLo :=
      mul_le_mul_of_nonneg_left h1 (le_of_lt hM)
    have h3 : kv.M * kvJB kv.Q kv.M thetaLo = thetaLo - kv.Q := by
      field_simp [kvJB]
    linarith
  -- the line at step jt lies strictly above thetaHi
  have hline_t : thetaHi < kv.Q + kv.M * (jt : ℚ) := by
    have h1 : kvJB kv.Q kv.M thetaHi < ((jt : ℚ)) := by
      have h0 := Int.lt_floor_add_one (kvJB kv.Q kv.M thetaHi)
      have h2 : ((jt : ℚ)) = ((⌊kvJB kv.Q kv.M thetaHi⌋ : ℤ) : ℚ) + 1 := by
        exact_mod_cast hjt_cast
      linarith [h2.le, h2.ge]
    have h2 : kv.M * kvJB kv.Q kv.M thetaHi < kv.M * (jt : ℚ) :=
      mul_lt_mul_of_pos_left h1 hM
    have h3 : kv.M * kvJB kv.Q kv.M thetaHi = thetaHi - kv.Q := by
      field_simp [kvJB]
    linarith
  -- position bounds from the construction invariant
  have hKb : kv.K.getD jb 0 < (p : ℤ) := by
    by_contra hcon
    push_neg at hcon
    have := (hiff jb hjblt p hp).mp hcon
    linarith
  have hKt : (p : ℤ) ≤ kv.K.getD jt 0 := by
    exact (hiff jt hjt p hp).mpr (by linarith)
  -- membership in the emitted slice
  simp only [retrieveFeatureListKVector]
  rw [← hjbdef, ← hjtdef]
  set kb : ℕ := (kv.K.getD jb 0 + 1).toNat with hkbdef
  set kt : ℕ := (kv.K.getD jt 0).toNat with hktdef
  have hkb_le : kb ≤ p := by omega
  have hkt_ge : p ≤ kt := by omega
  refine List.mem_map.mpr ⟨p - kb, List.mem_range.mpr (by omega), ?_⟩
  rw [Nat.add_sub_cancel' hkb_le]

/-- Witness for `kvector_slice_contains_exact_range`: the miniature
k-vector session with `Q = 0`, `M = 1`, features at θ = 1/2, 3/2, 5/2
and `K = [−1, 0, 1, 2]`; the query `(1/4, 2)` must return a slice
containing the feature at θ = 3/2. -/
theorem kvector_slice_contains_exact_range_witness :
    (⟨3, 4, 3/2⟩ : Feature) ∈
      retrieveFeatureListKVector
        ⟨0, 1, [-1, 0, 1, 2], [⟨1, 2, 1/2⟩, ⟨3, 4, 3/2⟩, ⟨5, 6, 5/2⟩]⟩
        (1/4) 2 := by
  have h := kvector_slice_contains_exact_range
    ⟨0, 1, [-1, 0, 1, 2], [⟨1, 2, 1/2⟩, ⟨3, 4, 3/2⟩, ⟨5, 6, 5/2⟩]⟩
    (1/4) 2 (by norm_num) (by norm_num) (by norm_num)
    (by norm_num [kvJB]; decide)
    (by
      intro j hj p hp
      simp only [List.length_cons, List.length_nil] at hj hp
      interval_cases j <;> interval_cases p <;>
        norm_num [List.getD, List.get?])
    1 (by norm_num)
    (by norm_num [List.getD, List.get?])
    (by norm_num [List.getD, List.get?])
  simpa [List.getD, List.get?] using h

/-- **C10**: extraction under the connected-components geometric method
mutates the thresholded frame: a pixel of an 8-connected component of
more than 15 pixels afterwards holds 129; any other pixel keeps its
thresholded intensity; and under every other centroiding method the
frame after extraction is exactly the pure thresholding of the loaded
frame. -/
theorem ccgeom_extraction_marks_big_components
    (T : ℕ) (frame labels : ℕ → ℕ → ℕ) (statsArea : ℕ → ℤ) (i j : ℕ) :
    (0 < labels i j ∧ 15 < statsArea (labels i j) →
      frameAfterExtract .connectedComponentsGeometric T frame labels statsArea i j
        = 129) ∧
    (¬ (0 < labels i j ∧ 15 < statsArea (labels i j)) →
      frameAfterExtract .connectedComponentsGeometric T frame labels statsArea i j
        = thresholdFrame T frame i j) ∧
    (∀ m : CentroidingMethod, m ≠ .connectedComponentsGeometric →
      frameAfterExtract m T frame labels statsArea i j
        = thresholdFrame T frame i j) := by
  refine ⟨?_, ?_, ?_⟩
  · intro h
    simp only [frameAfterExtract, ccGeomMarkFrame]
    rw [if_pos h]
  · intro h
    simp only [frameAfterExtract, ccGeomMarkFrame]
    rw [if_neg h]
  · intro m hm
    cases m with
    | connectedComponentsGeometric => exact absurd rfl hm
    | contoursGeometric => rfl
    | contoursWeighted => rfl
    | contoursWeightedBoundingBox => rfl
    | connectedComponentsWeighted => rfl

/-- Witness for `ccgeom_extraction_marks_big_components`: a frame with
one bright pixel at (0,0) in a 20-pixel component is marked to 129
there under the CC-geometric method, stays thresholded at (0,1), and
is untouched under the contours-weighted method. -/
theorem ccgeom_extraction_marks_big_components_witness :
    frameAfterExtract .connectedComponentsGeometric 64
      (fun i j => if i = 0 ∧ j = 0 then 200 else 0)
      (fun i j => if i = 0 ∧ j = 0 then 1 else 0)
      (fun l => if l = 1 then 20 else 0) 0 0 = 129 ∧
    frameAfterExtract .connectedComponentsGeometric 64
      (fun i j => if i = 0 ∧ j = 0 then 200 else 0)
      (fun i j => if i = 0 ∧ j = 0 then 1 else 0)
      (fun l => if l = 1 then 20 else 0) 0 1 =
      thresholdFrame 64 (fun i j => if i = 0 ∧ j = 0 then 200 else 0) 0 1 ∧
    frameAfterExtract .contoursWeighted 64
      (fun i j => if i = 0 ∧ j = 0 then 200 else 0)
      (fun i j => if i = 0 ∧ j = 0 then 1 else 0)
      (fun l => if l = 1 then 20 else 0) 0 0 =
      thresholdFrame 64 (fun i j => if i = 0 ∧ j = 0 then 200 else 0) 0 0 := by
  refine ⟨?_, ?_, ?_⟩
  · exact (ccgeom_extraction_marks_big_components 64 _ _ _ 0 0).1 (by norm_num)
  · exact (ccgeom_extraction_marks_big_components 64 _ _ _ 0 1).2.1 (by norm_num)
  · exact (ccgeom_extraction_marks_big_components 64 _ _ _ 0 0).2.2
      .contoursWeighted (by decide)

/-! ## Two-star voting method (part_000, lines 131-323)

The voting phase and the validation loop of
`StarIdentifier::identify2StarMethod`.  Modelling notes:

* `std::map<int,int>` is a key-sorted duplicate-free association list;
  `map[k]++` value-initialises an absent entry to 0 and increments;
  `map[k] = 0` inserts or overwrites with 0; `std::max_element` with
  the value comparison returns the first entry of maximal value in key
  order.
* Line 287 computes `std::min(votes.begin(), votes.end())`, the
  smaller *iterator*, which is always `votes.begin()`: the modified
  spot (`minIndex`) is always spot 0, and `unidentifiedStars` is always
  `votes[0]`.
* The loop guard compares `unsigned` values: `nSpots - falseStars - 1`
  is computed in unsigned arithmetic, hence the explicit `% 2^32`.
* The validation vote count reads the angle column with
  `sqlite3_column_int` (truncating the REAL) and dereferences the
  `find_if` result without an end-check; the latter is undefined
  behaviour in C++ when the pair is absent and is modelled by a default
  feature.  Neither value affects the termination argument.
* Out-of-range `operator[]` reads (possible when the loop body never
  runs, or for 0 or 1 spots) are undefined behaviour in C++ and are
  modelled by `List.getD` defaults. -/

/-- `createFeatureList2`: the observed features `(i, j, θ(i,j))` for
all spot pairs `i < j`, in lexicographic order. -/
def createFeatureList2 (n : ℕ) (theta : ℕ → ℕ → ℚ) : List Feature :=
  (List.range n).flatMap fun i =>
    (List.range' (i + 1) (n - (i + 1))).map fun j =>
      ⟨Int.ofNat i, Int.ofNat j, theta i j⟩

/-- `map[k]++` on a key-sorted association list: bump the entry, or
insert `(k, 1)` at its sorted position (`operator[]` value-initialises
to 0, then the increment makes it 1). -/
def mapIncr : List (ℤ × ℤ) → ℤ → List (ℤ × ℤ)
  | [], k => [(k, 1)]
  | (a, v) :: r, k =>
    if k < a then (k, 1) :: (a, v) :: r
    else if k = a then (a, v + 1) :: r
    else (a, v) :: mapIncr r k

/-- `map[k] = 0` on a key-sorted association list: overwrite the entry
with 0, or insert `(k, 0)` at its sorted position. -/
def mapSet0 : List (ℤ × ℤ) → ℤ → List (ℤ × ℤ)
  | [], k => [(k, 0)]
  | (a, v) :: r, k =>
    if k < a then (k, 0) :: (a, v) :: r
    else if k = a then (a, 0) :: r
    else (a, v) :: mapSet0 r k

/-- Lookup in the association list (`map.find(k)`). -/
def mapFind (m : List (ℤ × ℤ)) (k : ℤ) : Option ℤ :=
  (m.find? (fun e => e.1 == k)).map (fun e => e.2)

/-- `std::max_element` with the value comparison `pred`: the first
entry (in key order) whose value no later entry exceeds; `none` on an
empty map (where the C++ call would return `end()`). -/
def mapMax : List (ℤ × ℤ) → Option (ℤ × ℤ)
  | [] => none
  | e :: r => some (r.foldl (fun b x => if b.2 < x.2 then x else b) e)

/-- One `idTable[spot][hip]++` update of the vote table. -/
def tableIncr (tbl : List (List (ℤ × ℤ))) (spot hip : ℤ) :
    List (List (ℤ × ℤ)) :=
  tbl.set spot.toNat (mapIncr (tbl.getD spot.toNat []) hip)

/-- The voting phase (lines 160-196): for every observed feature, every
catalog feature within `(θ−ε, θ+ε)` adds one vote for each of its two
hips to each of the feature's two spots, in the source's order. -/
def votingPhase (catalog fl : List Feature) (n : ℕ) (eps : ℚ) :
    List (List (ℤ × ℤ)) :=
  fl.foldl
    (fun tbl f =>
      (queryRange catalog (f.theta - eps) (f.theta + eps)).foldl
        (fun tbl g =>
          tableIncr (tableIncr (tableIncr (tableIncr tbl f.id1 g.id1)
            f.id2 g.id1) f.id1 g.id2) f.id2 g.id2)
        tbl)
    (List.replicate n [])

/-- The initial assignment (lines 207-219): each spot gets the hip with
the most votes (first maximal entry in key order), or −1 when its vote
map is empty. -/
def initIdList (tbl : List (List (ℤ × ℤ))) : List ℤ :=
  tbl.map fun m =>
    match mapMax m with
    | none => -1
    | some e => e.1

/-- The initial false-star count: the number of spots whose vote map is
empty. -/
def initFalseStars (tbl : List (List (ℤ × ℤ))) : ℤ :=
  ((tbl.filter (fun m => m.isEmpty)).length : ℤ)

/-- Truncation toward zero, as `sqlite3_column_int` converts a REAL
angle to `int` (line 272). -/
def truncQ (q : ℚ) : ℤ := if q < 0 then -⌊-q⌋ else ⌊q⌋

/-- The catalog angle the validation loop reads for a pair of hips:
the first row of `SELECT * WHERE hip1 == a AND hip2 == b`, its REAL
angle truncated by the `int` column read; 0 when the query returns no
row (the source still reads the column of a `SQLITE_DONE` statement,
which yields 0). -/
def dbPairTheta (catalog : List Feature) (a b : ℤ) : ℤ :=
  match catalog.find? (fun f => f.id1 == a && f.id2 == b) with
  | some f => truncQ f.theta
  | none => 0

/-- The observed angle the validation loop reads:
`find_if(featureList, FeatureComparer(a, b))->theta`.  When no observed
feature matches (the ids compared are catalog hips while the observed
list carries spot indices), the C++ code dereferences `end()` —
undefined behaviour — modelled by the default feature. -/
def obsPairTheta (fl : List Feature) (a b : ℤ) : ℚ :=
  ((fl.find? (fun f => f.id1 == a && f.id2 == b)).getD default).theta

/-- The vote (confirmation) count computation of one validation pass
(lines 229-285): spots with id −1 get `nSpots` votes; every pair of
identified spots whose catalog angle is within `ε` of the observed
angle bumps both counters. -/
def computeVotes (n : ℕ) (catalog fl : List Feature) (eps : ℚ)
    (idList : List ℤ) : List ℤ :=
  (List.range (n - 1)).foldl
    (fun votes i =>
      if idList.getD i 0 < 0 then votes.set i (n : ℤ)
      else
        (List.range' (i + 1) (n - (i + 1))).foldl
          (fun votes j =>
            if idList.getD j 0 < 0 then votes.set j (n : ℤ)
            else
              let s1 := idList.getD i 0
              let s2 := idList.getD j 0
              if |((dbPairTheta catalog s1 s2 : ℤ) : ℚ) -
                  obsPairTheta fl s1 s2| ≤ eps then
                let v1 := votes.set i (votes.getD i 0 + 1)
                v1.set j (v1.getD j 0 + 1)
              else votes)
          votes)
    (List.replicate n (0 : ℤ))

/-- The state of the validation loop between passes. -/
structure ValState where
  nSpots : ℕ
  catalog : List Feature
  fl : List Feature
  eps : ℚ
  idList : List ℤ
  idTable : List (List (ℤ × ℤ))
  falseStars : ℤ
  u : ℤ
  votes : List ℤ

/-- Reduction of a C `unsigned` computation: value modulo `2^32`. -/
def uint32 (z : ℤ) : ℤ := z % 4294967296

/-- The loop guard's right-hand side: `nSpots - falseStars - 1`
computed in 32-bit unsigned arithmetic. -/
def valRHS (s : ValState) : ℤ :=
  uint32 ((s.nSpots : ℤ) - s.falseStars - 1)

/-- The vote list a pass computes from the current state. -/
def valVotes (s : ValState) : List ℤ :=
  computeVotes s.nSpots s.catalog s.fl s.eps s.idList

/-- `*minVotes` of a pass: `std::min(votes.begin(), votes.end())` is
`votes.begin()`, so this is `votes[0]` (out-of-range for 0 spots,
modelled by the default 0). -/
def valU (s : ValState) : ℤ := (valVotes s).getD 0 0

/-- The `while` guard: `unidentifiedStars < nSpots − falseStars − 1`
(unsigned comparison; `u` holds the previous pass's `votes[0]`,
initially 0). -/
def valCond (s : ValState) : Prop := s.u < valRHS s

/-- One body execution of the validation loop (lines 227-310): compute
the votes; if `votes[0]` is still below the threshold, zero the current
candidate of spot 0 in its vote map, then either demote spot 0 to −1
(and count one more false star) when no candidate with a positive count
remains, or move to the first maximal remaining candidate. -/
def valStep (s : ValState) : ValState :=
  if valU s < valRHS s then
    let t0 := s.idTable.getD 0 []
    let key := s.idList.getD 0 (-1)
    let t0n := mapSet0 t0 key
    let m := (mapMax t0n).getD (0, 0)
    if m.2 < 1 then
      { s with idList := s.idList.set 0 (-1),
               idTable := s.idTable.set 0 t0n,
               falseStars := s.falseStars + 1,
               u := valU s, votes := valVotes s }
    else
      { s with idList := s.idList.set 0 m.1,
               idTable := s.idTable.set 0 t0n,
               u := valU s, votes := valVotes s }
  else { s with u := valU s, votes := valVotes s }

/-- The state entering the validation loop: vote table from the voting
phase, initial assignment, false-star count, `unidentifiedStars = 0`
and an empty vote vector. -/
def valInit (catalog : List Feature) (theta : ℕ → ℕ → ℚ) (eps : ℚ)
    (n : ℕ) : ValState :=
  let fl := createFeatureList2 n theta
  let tbl := votingPhase catalog fl n eps
  { nSpots := n, catalog := catalog, fl := fl, eps := eps,
    idList := initIdList tbl, idTable := tbl,
    falseStars := initFalseStars tbl, u := 0, votes := [] }

/-! ## Termination of the validation loop: auxiliary structure -/

/-- Key-sortedness of an association list (the `std::map` invariant). -/
abbrev KeysLt (m : List (ℤ × ℤ)) : Prop := m.Pairwise (fun a b => a.1 < b.1)

/-- Total positive vote mass of a vote map. -/
def Sval (m : List (ℤ × ℤ)) : ℕ := (m.map (fun e => e.2.toNat)).sum

/-- Spot 0's vote map (the only one the validation loop modifies). -/
def tableAt0 (s : ValState) : List (ℤ × ℤ) := s.idTable.getD 0 []

/-- The loop invariant: spot 0's vote map is key-sorted; an empty
id list comes with an empty table; and either spot 0's current id has
a positive vote count, or every remaining count is non-positive. -/
def ValInv (s : ValState) : Prop :=
  KeysLt (tableAt0 s) ∧
  (s.idList = [] → s.idTable = []) ∧
  ((∃ v, mapFind (tableAt0 s) (s.idList.getD 0 (-1)) = some v ∧ 1 ≤ v) ∨
    ∀ e ∈ tableAt0 s, e.2 ≤ 0)

/-- The termination measure: positive vote mass of spot 0's map,
lexicographically above the (unsigned, hence bounded) loop guard
right-hand side. -/
def valMeasure (s : ValState) : ℕ :=
  Sval (tableAt0 s) * 4294967296 + (valRHS s).toNat

theorem mapSet0_ne_nil (m : List (ℤ × ℤ)) (k : ℤ) : mapSet0 m k ≠ [] := by
  cases m with
  | nil => simp [mapSet0]
  | cons e r =>
      obtain ⟨a, v⟩ := e
      simp only [mapSet0]
      split_ifs <;> simp

theorem mapSet0_mem (m : List (ℤ × ℤ)) (k : ℤ) :
    ∀ x ∈ mapSet0 m k, x ∈ m ∨ (x.1 = k ∧ x.2 = 0) := by
  induction m with
  | nil =>
      intro x hx
      simp only [mapSet0, List.mem_singleton] at hx
      right
      rw [hx]
      exact ⟨rfl, rfl⟩
  | cons e r ih =>
      obtain ⟨a, v⟩ := e
      intro x hx
      simp only [mapSet0] at hx
      split_ifs at hx with h1 h2
      · rcases List.mem_cons.mp hx with rfl | hx'
        · exact Or.inr ⟨rfl, rfl⟩
        · exact Or.inl hx'
      · rcases List.mem_cons.mp hx with rfl | hx'
        · exact Or.inr ⟨h2.symm, rfl⟩
        · exact Or.inl (List.mem_cons_of_mem _ hx')
      · rcases List.mem_cons.mp hx with rfl | hx'
        · exact Or.inl (List.mem_cons_self _ _)
        · rcases ih x hx' with h | h
          · exact Or.inl (List.mem_cons_of_mem _ h)
          · exact Or.inr h

theorem mapIncr_mem (m : List (ℤ × ℤ)) (k : ℤ) :
    ∀ x ∈ mapIncr m k,
      x ∈ m ∨ (x.1 = k ∧ x.2 = 1) ∨ ∃ y ∈ m, x.1 = y.1 ∧ x.2 = y.2 + 1 := by
  induction m with
  | nil =>
      intro x hx
      simp only [mapIncr, List.mem_singleton] at hx
      right; left
      rw [hx]
      exact ⟨rfl, rfl⟩
  | cons e r ih =>
      obtain ⟨a, v⟩ := e
      intro x hx
      simp only [mapIncr] at hx
      split_ifs at hx with h1 h2
      · rcases List.mem_cons.mp hx with rfl | hx'
        · exact Or.inr (Or.inl ⟨rfl, rfl⟩)
        · exact Or.inl hx'
      · rcases List.mem_cons.mp hx with rfl | hx'
        · exact Or.inr (Or.inr ⟨(a, v), List.mem_cons_self _ _, rfl, rfl⟩)
        · exact Or.inl (List.mem_cons_of_mem _ hx')
      · rcases List.mem_cons.mp hx with rfl | hx'
        · exact Or.inl (List.mem_cons_self _ _)
        · rcases ih x hx' with h | h | ⟨y, hy, hxy⟩
          · exact Or.inl (List.mem_cons_of_mem _ h)
          · exact Or.inr (Or.inl h)
          · exact Or.inr (Or.inr ⟨y, List.mem_cons_of_mem _ hy, hxy⟩)

theorem KeysLt_mapSet0 (m : List (ℤ × ℤ)) (k : ℤ) (h : KeysLt m) :
    KeysLt (mapSet0 m k) := by
  induction m with
  | nil => simp [mapSet0]
  | cons e r ih =>
      obtain ⟨a, v⟩ := e
      obtain ⟨hhead, htail⟩ := List.pairwise_cons.mp h
      simp only [mapSet0]
      split_ifs with h1 h2
      · refine List.pairwise_cons.mpr ⟨?_, List.pairwise_cons.mpr ⟨hhead, htail⟩⟩
        intro x hx
        rcases List.mem_cons.mp hx with rfl | hx'
        · exact h1
        · exact lt_trans h1 (hhead x hx')
      · exact List.pairwise_cons.mpr ⟨hhead, htail⟩
      · refine List.pairwise_cons.mpr ⟨?_, ih htail⟩
        intro x hx
        rcases mapSet0_mem r k x hx with hx' | ⟨hk, _⟩
        · exact hhead x hx'
        · rw [hk]; omega

theorem KeysLt_mapIncr (m : List (ℤ × ℤ)) (k : ℤ) (h : KeysLt m) :
    KeysLt (mapIncr m k) := by
  induction m with
  | nil => simp [mapIncr]
  | cons e r ih =>
      obtain ⟨a, v⟩ := e
      obtain ⟨hhead, htail⟩ := List.pairwise_cons.mp h
      simp only [mapIncr]
      split_ifs with h1 h2
      · refine List.pairwise_cons.mpr ⟨?_, List.pairwise_cons.mpr ⟨hhead, htail⟩⟩
        intro x hx
        rcases List.mem_cons.mp hx with rfl | hx'
        · exact h1
        · exact lt_trans h1 (hhead x hx')
      · exact List.pairwise_cons.mpr ⟨hhead, htail⟩
      · refine List.pairwise_cons.mpr ⟨?_, ih htail⟩
        intro x hx
        rcases mapIncr_mem r k x hx with hx' | ⟨hk, _⟩ | ⟨y, hy, hk, _⟩
        · exact hhead x hx'
        · rw [hk]; omega
        · rw [hk]; exact hhead y hy

theorem mapFind_none (m : List (ℤ × ℤ)) (k : ℤ)
    (h : ∀ e ∈ m, k ≠ e.1) : mapFind m k = none := by
  induction m with
  | nil => rfl
  | cons e r ih =>
      have hne : ¬ (e.1 == k) = true := by
        simp only [beq_iff_eq]
        exact fun hh => h e (List.mem_cons_self _ _) hh.symm
      have hne' : (e.1 == k) = false := by simpa using hne
      have hr := ih fun x hx => h x (List.mem_cons_of_mem _ hx)
      simp only [mapFind] at hr ⊢
      simp only [List.find?, hne']
      exact hr

theorem mapFind_of_mem (m : List (ℤ × ℤ)) (e : ℤ × ℤ) (hs : KeysLt m)
    (he : e ∈ m) : mapFind m e.1 = some e.2 := by
  induction m with
  | nil => cases he
  | cons a r ih =>
      obtain ⟨hhead, htail⟩ := List.pairwise_cons.mp hs
      rcases List.mem_cons.mp he with rfl | he'
      · simp [mapFind, List.find?, beq_self_eq_true]
      · have hne' : (a.1 == e.1) = false := by
          simp only [beq_eq_false_iff_ne, ne_eq]
          exact ne_of_lt (hhead e he')
        have hr := ih htail he'
        simp only [mapFind] at hr ⊢
        simp only [List.find?, hne']
        exact hr

theorem mapFind_mem (m : List (ℤ × ℤ)) (k v : ℤ)
    (h : mapFind m k = some v) : ∃ e ∈ m, e.1 = k ∧ e.2 = v := by
  unfold mapFind at h
  cases hf : m.find? (fun e => e.1 == k) with
  | none => rw [hf] at h; cases h
  | some e =>
      rw [hf] at h
      have hmem := List.mem_of_find?_eq_some hf
      have hpred := List.find?_some hf
      simp only [beq_iff_eq] at hpred
      exact ⟨e, hmem, hpred, by simpa using h⟩

theorem Sval_mapSet0 (k : ℤ) :
    ∀ m : List (ℤ × ℤ), KeysLt m →
      Sval (mapSet0 m k) + (mapFind m k).elim 0 Int.toNat = Sval m := by
  intro m
  induction m with
  | nil => intro _; simp [mapSet0, mapFind, Sval]
  | cons e r ih =>
      intro hs
      obtain ⟨a, v⟩ := e
      obtain ⟨hhead, htail⟩ := List.pairwise_cons.mp hs
      simp only [mapSet0]
      split_ifs with h1 h2
      · have hnone : mapFind ((a, v) :: r) k = none := by
          apply mapFind_none
          intro x hx
          rcases List.mem_cons.mp hx with rfl | hx'
          · exact ne_of_lt h1
          · exact ne_of_lt (lt_trans h1 (hhead x hx'))
        rw [hnone]
        simp [Sval]
      · have hsome : mapFind ((a, v) :: r) k = some v := by
          subst h2
          simp [mapFind, List.find?, beq_self_eq_true]
        rw [hsome]
        simp only [Sval, List.map_cons, List.sum_cons, Option.elim]
        omega
      · have ha : (((a, v).1 : ℤ) == k) = false := by
          simp only [beq_eq_false_iff_ne, ne_eq]
          omega
        have hfind : mapFind ((a, v) :: r) k = mapFind r k := by
          simp only [mapFind, List.find?, ha]
        rw [hfind]
        have := ih htail
        simp only [Sval, List.map_cons, List.sum_cons] at *
        omega

theorem mapMax_none_iff (m : List (ℤ × ℤ)) : mapMax m = none ↔ m = [] := by
  cases m <;> simp [mapMax]

theorem maxFold_spec :
    ∀ (r : List (ℤ × ℤ)) (b : ℤ × ℤ),
      (r.foldl (fun b x => if b.2 < x.2 then x else b) b = b ∨
        r.foldl (fun b x => if b.2 < x.2 then x else b) b ∈ r) ∧
      b.2 ≤ (r.foldl (fun b x => if b.2 < x.2 then x else b) b).2 ∧
      ∀ x ∈ r, x.2 ≤ (r.foldl (fun b x => if b.2 < x.2 then x else b) b).2 := by
  intro r
  induction r with
  | nil => intro b; refine ⟨Or.inl rfl, le_refl _, by simp⟩
  | cons y r ih =>
      intro b
      simp only [List.foldl_cons]
      obtain ⟨hmem, hble, hall⟩ := ih (if b.2 < y.2 then y else b)
      have hb2 : b.2 ≤ (if b.2 < y.2 then y else b).2 := by
        split_ifs with hc
        · exact le_of_lt hc
        · exact le_refl _
      have hy2 : y.2 ≤ (if b.2 < y.2 then y else b).2 := by
        split_ifs with hc
        · exact le_refl _
        · omega
      refine ⟨?_, le_trans hb2 hble, ?_⟩
      · rcases hmem with heq | hmem'
        · rw [heq]
          split_ifs with hc
          · exact Or.inr (List.mem_cons_self _ _)
          · exact Or.inl rfl
        · exact Or.inr (List.mem_cons_of_mem _ hmem')
      · intro x hx
        rcases List.mem_cons.mp hx with rfl | hx'
        · exact le_trans hy2 hble
        · exact hall x hx'

theorem mapMax_spec (m : List (ℤ × ℤ)) (e : ℤ × ℤ)
    (h : mapMax m = some e) : e ∈ m ∧ ∀ x ∈ m, x.2 ≤ e.2 := by
  cases m with
  | nil => cases h
  | cons a r =>
      simp only [mapMax, Option.some.injEq] at h
      obtain ⟨hmem, hble, hall⟩ := maxFold_spec r a
      rw [h] at hmem hble hall
      constructor
      · rcases hmem with heq | hmem'
        · rw [← heq]; exact List.mem_cons_self _ _
        · exact List.mem_cons_of_mem _ hmem'
      · intro x hx
        rcases List.mem_cons.mp hx with rfl | hx'
        · exact hble
        · exact hall x hx'

theorem mapIncr_pos (m : List (ℤ × ℤ)) (k : ℤ)
    (h : ∀ e ∈ m, 1 ≤ e.2) : ∀ e ∈ mapIncr m k, 1 ≤ e.2 := by
  intro e he
  rcases mapIncr_mem m k e he with h1 | ⟨_, h2⟩ | ⟨y, hy, _, h2⟩
  · exact h e h1
  · omega
  · have := h y hy
    omega

theorem mapSet0_nonpos (m : List (ℤ × ℤ)) (k : ℤ)
    (h : ∀ e ∈ m, e.2 ≤ 0) : ∀ e ∈ mapSet0 m k, e.2 ≤ 0 := by
  intro e he
  rcases mapSet0_mem m k e he with h1 | ⟨_, h2⟩
  · exact h e h1
  · omega

theorem getD_mem_or_eq {α : Type} (l : List α) (i : ℕ) (d : α) :
    l.getD i d ∈ l ∨ l.getD i d = d := by
  induction l generalizing i with
  | nil => right; cases i <;> rfl
  | cons a l ih =>
      cases i with
      | zero => exact Or.inl (List.mem_cons_self _ _)
      | succ i =>
          rcases ih i with h | h
          · exact Or.inl (List.mem_cons_of_mem _ h)
          · exact Or.inr h

theorem foldlInv {α β : Type} (f : α → β → α) (P : α → Prop) :
    ∀ (l : List β) (a : α), P a → (∀ x y, P x → P (f x y)) → P (l.foldl f a)
  | [], _, ha, _ => ha
  | b :: l, a, ha, hstep => foldlInv f P l (f a b) (hstep a b ha) hstep

theorem set_nonneg (l : List ℤ) (i : ℕ) (v : ℤ)
    (hl : ∀ x ∈ l, 0 ≤ x) (hv : 0 ≤ v) : ∀ x ∈ l.set i v, 0 ≤ x := by
  intro x hx
  rcases List.mem_or_eq_of_mem_set hx with h | rfl
  · exact hl x h
  · exact hv

theorem getD_nonneg (l : List ℤ) (i : ℕ) (hl : ∀ x ∈ l, 0 ≤ x) :
    0 ≤ l.getD i 0 := by
  rcases getD_mem_or_eq l i 0 with h | h
  · exact hl _ h
  · omega

theorem computeVotes_nonneg (n : ℕ) (cat fl : List Feature) (eps : ℚ)
    (idl : List ℤ) : ∀ x ∈ computeVotes n cat fl eps idl, 0 ≤ x := by
  unfold computeVotes
  apply foldlInv _ (fun v => ∀ x ∈ v, 0 ≤ x)
  · intro x hx
    rw [List.eq_of_mem_replicate hx]
  · intro votes i hv
    split_ifs with h1
    · exact set_nonneg _ _ _ hv (Int.natCast_nonneg n)
    · apply foldlInv _ (fun v => ∀ x ∈ v, 0 ≤ x) _ _ hv
      intro votes' j hv'
      split_ifs with h2
      · exact set_nonneg _ _ _ hv' (Int.natCast_nonneg n)
      · dsimp only
        split_ifs with h3
        · have hvi : 0 ≤ votes'.getD i 0 := getD_nonneg _ _ hv'
          have hstep1 : ∀ x ∈ votes'.set i (votes'.getD i 0 + 1), 0 ≤ x :=
            set_nonneg _ _ _ hv' (by omega)
          have hvj : 0 ≤ (votes'.set i (votes'.getD i 0 + 1)).getD j 0 :=
            getD_nonneg _ _ hstep1
          exact set_nonneg (votes'.set i (votes'.getD i 0 + 1)) j
            ((votes'.set i (votes'.getD i 0 + 1)).getD j 0 + 1) hstep1 (by omega)
        · exact hv'

theorem valU_nonneg (s : ValState) : 0 ≤ valU s :=
  getD_nonneg _ _ (computeVotes_nonneg _ _ _ _ _)

theorem uint32_nonneg (z : ℤ) : 0 ≤ uint32 z := by
  unfold uint32; omega

theorem uint32_lt (z : ℤ) : uint32 z < 4294967296 := by
  unfold uint32; omega

theorem uint32_pred (z : ℤ) (h : 1 ≤ uint32 z) :
    uint32 (z - 1) = uint32 z - 1 := by
  unfold uint32 at *; omega

theorem valRHS_lb (s : ValState) : 0 ≤ valRHS s := uint32_nonneg _

theorem valRHS_ub (s : ValState) : valRHS s < 4294967296 := uint32_lt _

theorem valStep_fired (s : ValState) (hinv : ValInv s)
    (hf : valU s < valRHS s) :
    valMeasure (valStep s) < valMeasure s ∧ ValInv (valStep s) := by
  obtain ⟨hKs, hnil, hdisj⟩ := hinv
  have hR1 : 1 ≤ valRHS s := by
    have h0 := valU_nonneg s
    omega
  set t0 : List (ℤ × ℤ) := s.idTable.getD 0 [] with ht0
  set key : ℤ := s.idList.getD 0 (-1) with hkey
  set t0n : List (ℤ × ℤ) := mapSet0 t0 key with ht0n
  set m : ℤ × ℤ := (mapMax t0n).getD (0, 0) with hm
  have hKn : KeysLt t0n := KeysLt_mapSet0 t0 key hKs
  have htne : t0n ≠ [] := mapSet0_ne_nil t0 key
  have hmax : mapMax t0n = some m := by
    cases hmm : mapMax t0n with
    | none => exact absurd ((mapMax_none_iff t0n).mp hmm) htne
    | some e => rw [hm, hmm]; rfl
  obtain ⟨hm_mem, hm_all⟩ := mapMax_spec t0n m hmax
  have htA : tableAt0 s = t0 := by rw [ht0]; rfl
  rw [htA] at hdisj
  have hSval := Sval_mapSet0 key t0 hKs
  rw [← ht0n] at hSval
  have hstep : valStep s =
      if m.2 < 1 then
        { s with idList := s.idList.set 0 (-1),
                 idTable := s.idTable.set 0 t0n,
                 falseStars := s.falseStars + 1,
                 u := valU s, votes := valVotes s }
      else
        { s with idList := s.idList.set 0 m.1,
                 idTable := s.idTable.set 0 t0n,
                 u := valU s, votes := valVotes s } := by
    unfold valStep
    rw [if_pos hf]
  have hRdec : uint32 ((s.nSpots : ℤ) - (s.falseStars + 1) - 1) =
      valRHS s - 1 := by
    have harg : (s.nSpots : ℤ) - (s.falseStars + 1) - 1 =
        ((s.nSpots : ℤ) - s.falseStars - 1) - 1 := by ring
    rw [harg]
    exact uint32_pred _ hR1
  have hB : valMeasure s = Sval t0 * 4294967296 + (valRHS s).toNat := by
    simp only [valMeasure, tableAt0, ← ht0]
  have hADem : valMeasure
      { s with idList := s.idList.set 0 (-1),
               idTable := s.idTable.set 0 t0n,
               falseStars := s.falseStars + 1,
               u := valU s, votes := valVotes s } =
      Sval ((s.idTable.set 0 t0n).getD 0 []) * 4294967296 +
        (uint32 ((s.nSpots : ℤ) - (s.falseStars + 1) - 1)).toNat := rfl
  have hAKeep : valMeasure
      { s with idList := s.idList.set 0 m.1,
               idTable := s.idTable.set 0 t0n,
               u := valU s, votes := valVotes s } =
      Sval ((s.idTable.set 0 t0n).getD 0 []) * 4294967296 +
        (valRHS s).toNat := rfl
  cases hT : s.idTable with
  | nil =>
      have ht0e : t0 = [] := by rw [ht0, hT]; rfl
      have ht0ne : t0n = [(key, 0)] := by rw [ht0n, ht0e]; rfl
      have hme : m = (key, 0) := by rw [hm, ht0ne]; rfl
      have hb : m.2 < 1 := by rw [hme]; norm_num
      rw [if_pos hb] at hstep
      have htabA : (s.idTable.set 0 t0n).getD 0 [] = ([] : List (ℤ × ℤ)) := by
        rw [hT]
        rfl
      constructor
      · rw [hstep, hADem, htabA, hRdec, hB]
        have hS0 : Sval t0 = 0 := by rw [ht0e]; rfl
        have hSe : Sval ([] : List (ℤ × ℤ)) = 0 := rfl
        rw [hS0, hSe]
        omega
      · refine ⟨?_, ?_, ?_⟩
        · rw [hstep]
          show KeysLt ((s.idTable.set 0 t0n).getD 0 [])
          rw [htabA]
          exact List.Pairwise.nil
        · intro _
          rw [hstep]
          show s.idTable.set 0 t0n = []
          rw [hT]
          rfl
        · right
          rw [hstep]
          show ∀ e ∈ (s.idTable.set 0 t0n).getD 0 [], e.2 ≤ 0
          rw [htabA]
          intro e he
          cases he
  | cons hd tl =>
      have hLne : s.idList ≠ [] := by
        intro h
        rw [hnil h] at hT
        exact (List.cons_ne_nil hd tl) hT.symm
      have htabA : (s.idTable.set 0 t0n).getD 0 [] = t0n := by
        rw [hT]
        rfl
      cases hL : s.idList with
      | nil => exact absurd hL hLne
      | cons a rest =>
          rcases hdisj with ⟨v, hfind, hv1⟩ | hnp
          · -- spot 0's current id has a positive count: the mass drops
            have hSlt : Sval t0n < Sval t0 := by
              rw [hfind] at hSval
              simp only [Option.elim] at hSval
              omega
            by_cases hb : m.2 < 1
            · rw [if_pos hb] at hstep
              constructor
              · rw [hstep, hADem, htabA, hRdec, hB]
                have hub := valRHS_ub s
                omega
              · refine ⟨?_, ?_, ?_⟩
                · rw [hstep]
                  show KeysLt ((s.idTable.set 0 t0n).getD 0 [])
                  rw [htabA]
                  exact hKn
                · intro h
                  rw [hstep] at h
                  have h2 : s.idList.set 0 (-1) = [] := h
                  rw [List.set_eq_nil_iff] at h2
                  exact absurd h2 hLne
                · right
                  rw [hstep]
                  show ∀ e ∈ (s.idTable.set 0 t0n).getD 0 [], e.2 ≤ 0
                  rw [htabA]
                  intro e he
                  have := hm_all e he
                  omega
            · rw [if_neg hb] at hstep
              constructor
              · rw [hstep, hAKeep, htabA, hB]
                have hub := valRHS_ub s
                have hlb := valRHS_lb s
                omega
              · refine ⟨?_, ?_, ?_⟩
                · rw [hstep]
                  show KeysLt ((s.idTable.set 0 t0n).getD 0 [])
                  rw [htabA]
                  exact hKn
                · intro h
                  rw [hstep] at h
                  have h2 : s.idList.set 0 m.1 = [] := h
                  rw [List.set_eq_nil_iff] at h2
                  exact absurd h2 hLne
                · left
                  refine ⟨m.2, ?_, by omega⟩
                  rw [hstep]
                  show mapFind ((s.idTable.set 0 t0n).getD 0 [])
                      ((s.idList.set 0 m.1).getD 0 (-1)) = some m.2
                  rw [htabA, hL]
                  show mapFind t0n m.1 = some m.2
                  exact mapFind_of_mem t0n m hKn hm_mem
          · -- every count is non-positive: the false-star count rises
            have hSeq : Sval t0n = Sval t0 := by
              cases hfk : mapFind t0 key with
              | none =>
                  rw [hfk] at hSval
                  simpa using hSval
              | some v =>
                  obtain ⟨e, he, _, he2⟩ := mapFind_mem t0 key v hfk
                  have hle := hnp e he
                  rw [hfk] at hSval
                  simp only [Option.elim] at hSval
                  omega
            have hnp' : ∀ e ∈ t0n, e.2 ≤ 0 := mapSet0_nonpos t0 key hnp
            have hb : m.2 < 1 := by
              have := hnp' m hm_mem
              omega
            rw [if_pos hb] at hstep
            constructor
            · rw [hstep, hADem, htabA, hRdec, hB, hSeq]
              omega
            · refine ⟨?_, ?_, ?_⟩
              · rw [hstep]
                show KeysLt ((s.idTable.set 0 t0n).getD 0 [])
                rw [htabA]
                exact hKn
              · intro h
                rw [hstep] at h
                have h2 : s.idList.set 0 (-1) = [] := h
                rw [List.set_eq_nil_iff] at h2
                exact absurd h2 hLne
              · right
                rw [hstep]
                show ∀ e ∈ (s.idTable.set 0 t0n).getD 0 [], e.2 ≤ 0
                rw [htabA]
                exact hnp'

theorem tableIncr_inv (tbl : List (List (ℤ × ℤ))) (sp hip : ℤ)
    (h : ∀ mm ∈ tbl, KeysLt mm ∧ ∀ e ∈ mm, 1 ≤ e.2) :
    ∀ mm ∈ tableIncr tbl sp hip, KeysLt mm ∧ ∀ e ∈ mm, 1 ≤ e.2 := by
  intro mm hmm
  simp only [tableIncr] at hmm
  rcases List.mem_or_eq_of_mem_set hmm with h1 | rfl
  · exact h mm h1
  · have hbase : KeysLt (tbl.getD sp.toNat []) ∧
        ∀ e ∈ tbl.getD sp.toNat [], 1 ≤ e.2 := by
      rcases getD_mem_or_eq tbl sp.toNat [] with hmem | heq
      · exact h _ hmem
      · rw [heq]
        exact ⟨List.Pairwise.nil, by intro e he; cases he⟩
    exact ⟨KeysLt_mapIncr _ _ hbase.1, mapIncr_pos _ _ hbase.2⟩

theorem votingPhase_inv (catalog fl : List Feature) (n : ℕ) (eps : ℚ) :
    ∀ mm ∈ votingPhase catalog fl n eps, KeysLt mm ∧ ∀ e ∈ mm, 1 ≤ e.2 := by
  unfold votingPhase
  apply foldlInv _ (fun tbl => ∀ mm ∈ tbl, KeysLt mm ∧ ∀ e ∈ mm, 1 ≤ e.2)
  · intro mm hmm
    rw [List.eq_of_mem_replicate hmm]
    exact ⟨List.Pairwise.nil, by intro e he; cases he⟩
  · intro tbl f htbl
    apply foldlInv _ (fun tbl => ∀ mm ∈ tbl, KeysLt mm ∧ ∀ e ∈ mm, 1 ≤ e.2) _
      _ htbl
    intro tbl' g htbl'
    exact tableIncr_inv _ _ _ (tableIncr_inv _ _ _ (tableIncr_inv _ _ _
      (tableIncr_inv _ _ _ htbl')))

theorem valInit_inv (catalog : List Feature) (theta : ℕ → ℕ → ℚ)
    (eps : ℚ) (n : ℕ) : ValInv (valInit catalog theta eps n) := by
  have hP := votingPhase_inv catalog (createFeatureList2 n theta) n eps
  set tbl := votingPhase catalog (createFeatureList2 n theta) n eps with htbl
  have h1 : tableAt0 (valInit catalog theta eps n) = tbl.getD 0 [] := by
    rw [htbl]
    rfl
  have h2 : (valInit catalog theta eps n).idList = initIdList tbl := by
    rw [htbl]
    rfl
  have h3 : (valInit catalog theta eps n).idTable = tbl := by
    rw [htbl]
    rfl
  unfold ValInv
  rw [h1, h2, h3]
  refine ⟨?_, ?_, ?_⟩
  · rcases getD_mem_or_eq tbl 0 ([] : List (ℤ × ℤ)) with hmem | heq
    · exact (hP _ hmem).1
    · rw [heq]
      exact List.Pairwise.nil
  · intro h
    simpa [initIdList] using h
  · cases htl : tbl with
    | nil =>
        right
        intro e he
        exact absurd he (List.not_mem_nil e)
    | cons m0 rest =>
        cases hmm : mapMax m0 with
        | none =>
            right
            have hm0 : m0 = [] := (mapMax_none_iff m0).mp hmm
            show ∀ e ∈ ((m0 :: rest).getD 0 []), e.2 ≤ 0
            rw [show ((m0 :: rest).getD 0 ([] : List (ℤ × ℤ))) = m0 from rfl,
              hm0]
            intro e he
            exact absurd he (List.not_mem_nil e)
        | some e =>
            left
            obtain ⟨hmem0, _⟩ := mapMax_spec m0 e hmm
            have hK0 : KeysLt m0 ∧ ∀ x ∈ m0, 1 ≤ x.2 := by
              apply hP
              rw [htl]
              exact List.mem_cons_self _ _
            refine ⟨e.2, ?_, hK0.2 e hmem0⟩
            have hgd : ((m0 :: rest).getD 0 ([] : List (ℤ × ℤ))) = m0 := rfl
            have hid : (initIdList (m0 :: rest)).getD 0 (-1) = e.1 := by
              simp only [initIdList, List.map_cons]
              show (match mapMax m0 with | none => -1 | some e => e.1) = e.1
              rw [hmm]
            rw [hgd, hid]
            exact mapFind_of_mem m0 e hK0.1 hmem0

theorem valStep_exits (s : ValState) (hf : ¬ valU s < valRHS s) :
    ¬ valCond (valStep s) := by
  have hstep : valStep s = { s with u := valU s, votes := valVotes s } := by
    unfold valStep
    rw [if_neg hf]
  rw [hstep]
  show ¬ ({ s with u := valU s, votes := valVotes s } : ValState).u <
      valRHS { s with u := valU s, votes := valVotes s }
  exact hf

theorem valTermAux : ∀ (fuel : ℕ) (s : ValState), ValInv s →
    valMeasure s ≤ fuel → ∃ m : ℕ, ¬ valCond (valStep^[m] s) := by
  intro fuel
  induction fuel with
  | zero =>
      intro s hinv hle
      by_cases hf : valU s < valRHS s
      · exfalso
        have h0 := valU_nonneg s
        have h1 : 1 ≤ valRHS s := by omega
        have h2 : 1 ≤ valMeasure s := by
          have h3 : 1 ≤ (valRHS s).toNat := by omega
          unfold valMeasure
          omega
        omega
      · exact ⟨1, by rw [Function.iterate_one]; exact valStep_exits s hf⟩
  | succ fuel ih =>
      intro s hinv hle
      by_cases hf : valU s < valRHS s
      · obtain ⟨hlt, hinv'⟩ := valStep_fired s hinv hf
        obtain ⟨m, hm⟩ := ih (valStep s) hinv' (by omega)
        exact ⟨m + 1, by rw [Function.iterate_succ_apply]; exact hm⟩
      · exact ⟨1, by rw [Function.iterate_one]; exact valStep_exits s hf⟩

/-- **C7**: the two-star validation loop terminates on every input: for
every star-vector count `n`, every observed-angle valuation, every
catalog and every tolerance, some number of loop passes reaches a state
in which the (unsigned) guard `unidentifiedStars < nSpots − falseStars
− 1` fails.  The proof follows the source's actual mechanics: every
continuing pass either strictly reduces the positive vote mass of spot
0's candidate map (the modified spot is always spot 0 because line 287
computes `std::min` of two iterators) or increases the false-star
count, which strictly decreases the unsigned guard bound; both
quantities are bounded. -/
theorem two_star_validation_loop_terminates (catalog : List Feature)
    (theta : ℕ → ℕ → ℚ) (eps : ℚ) (n : ℕ) :
    ∃ m : ℕ, ¬ valCond (valStep^[m] (valInit catalog theta eps n)) :=
  valTermAux (valMeasure (valInit catalog theta eps n))
    (valInit catalog theta eps n) (valInit_inv catalog theta eps n) le_rfl
